import Mathlib

/-!
# Shallow embedding of `shop.h` (dylaris/shop), a short-option command-line parser

The C library keeps a global growable array `shop__options` of `shop_option_t`
records plus a 255-entry lookup table `shop__map` mapping an option name to the
1-based index of its (most recently registered) descriptor, `0` meaning absent.

We embed the registry as a `List shop_option` in registration order.  Since
`shop__map[name]` is overwritten on every push with the current length, it
always points at the *last* element of the list bearing that name, and option
names are never mutated after registration; so `shop__find` is embedded as
"last element with this name" and pointer mutation through `shop__find` as an
update of that last element (`updateLast`).

C strings are embedded as `List Char` for argv tokens (scanned character by
character) and as `String` for stored values and formats.  Fatal
`SHOP_ASSERT` failures (diagnostic + `exit(EXIT_FAILURE)`) are embedded as
`Except`/error results; a NULL-pointer dereference (no diagnostic) is embedded
as `none`.
-/

namespace Shop

/-- Embeds `shop_option_t` (src/shop.h:80-89).  `info`/`scan_fmt` are `const
char *` that may be NULL, hence `Option String`. -/
structure shop_option where
  name : Char
  info : Option String := none
  scan_fmt : Option String := none
  used : Bool := false
  take_arg : Bool := false
  items : List String := []
  deriving DecidableEq, Repr

/-- Embeds `shop__find` (src/shop.h:210-214): `shop__map` holds, for each
name, the 1-based index of the last descriptor pushed with that name, so the
lookup returns the *last* element of the registry with the given name
(`none` embeds the NULL return for `shop__map[name] == 0`). -/
def shop__find (c : Char) : List shop_option → Option shop_option
  | [] => none
  | o :: os =>
    match shop__find c os with
    | some r => some r
    | none => if o.name = c then some o else none

/-- Mutation through the pointer returned by `shop__find`: update the last
element of the registry whose name is `c`; identity when `c` is absent. -/
def updateLast (c : Char) (f : shop_option → shop_option) : List shop_option → List shop_option
  | [] => []
  | o :: os =>
    if (shop__find c os).isSome then o :: updateLast c f os
    else if o.name = c then f o :: os
    else o :: os

/-- The delimiter set `": "` passed to `strtok` in `shop_set` (src/shop.h:182). -/
def isDelim (c : Char) : Bool := c = ':' || c = ' '

/-- Accumulator-based embedding of the `strtok(p, ": ")` loop: maximal runs of
non-delimiter characters, with empty runs skipped (exactly `strtok`'s
behaviour on leading/consecutive/trailing delimiters). -/
def specTokensAux : List Char → List Char → List (List Char)
  | [], acc => if acc.isEmpty then [] else [acc.reverse]
  | c :: cs, acc =>
    if isDelim c then
      if acc.isEmpty then specTokensAux cs []
      else acc.reverse :: specTokensAux cs []
    else specTokensAux cs (c :: acc)

def specTokens (s : List Char) : List (List Char) := specTokensAux s []

/-- The inner loop of `shop_set` (src/shop.h:184-189): every character of a
token becomes an option with `take_arg = false`, except the token's last
character which is pushed with `take_arg = true`. -/
def tokenOpts : List Char → List shop_option
  | [] => []
  | [c] => [{ name := c, take_arg := true }]
  | c :: cs => { name := c, take_arg := false } :: tokenOpts cs

/-- The retrofit at src/shop.h:193-197: clear `take_arg` of the last
registered option.  (When the registry is empty the C code indexes
`items[len-1]` out of bounds — undefined behaviour; the embedding is a no-op
there, and theorems about `shop_set` assume at least one option character.) -/
def unmarkLast : List shop_option → List shop_option
  | [] => []
  | [o] => [{ o with take_arg := false }]
  | o :: os => o :: unmarkLast os

/-- The registry contents after the `strtok` loop of `shop_set`
(src/shop.h:180-191), before the retrofit. -/
def shop_setRaw (spec : List Char) : List shop_option :=
  (specTokens spec).foldr (fun t acc => tokenOpts t ++ acc) []

/-- Embeds `shop_set` (src/shop.h:173-198).  The retrofit runs unless the
final character of the whole spec string is `':'` (`opt_str[len-1] != ':'`;
for the empty spec that read is out of bounds in C — the embedding takes the
retrofit branch, and theorems assume a non-degenerate spec). -/
def shop_set (spec : List Char) : List shop_option :=
  if spec.getLast? = some ':' then shop_setRaw spec else unmarkLast (shop_setRaw spec)

/-- Embeds `shop_desc` (src/shop.h:216-220).  The C code does *not* check the
result of `shop__find`: for an unknown name it dereferences NULL.  `none`
embeds that crash (no diagnostic is printed, unlike the `SHOP_ASSERT` paths). -/
def shop_desc (c : Char) (fmt : Option String) (info : Option String)
    (s : List shop_option) : Option (List shop_option) :=
  match shop__find c s with
  | none => none
  | some _ => some (updateLast c (fun o => { o with scan_fmt := fmt, info := info }) s)

/-- Embeds `shop_use` (src/shop.h:222-226): the descriptor when found and
used, NULL (= `none`) otherwise. -/
def shop_use (c : Char) (s : List shop_option) : Option shop_option :=
  match shop__find c s with
  | some o => if o.used then some o else none
  | none => none

/-- Embeds `opt->used = true` (src/shop.h:241). -/
def markUsed (c : Char) (s : List shop_option) : List shop_option :=
  updateLast c (fun o => { o with used := true }) s

/-- Embeds `shop__push(opt, value)` (src/shop.h:246,260): append one raw value. -/
def pushItem (c : Char) (v : String) (s : List shop_option) : List shop_option :=
  updateLast c (fun o => { o with items := o.items ++ [v] }) s

/-- The two fatal `SHOP_ASSERT`s inside `shop_track` (src/shop.h:240,255). -/
inductive TrackErr where
  | unknownOption (c : Char)
  | missingArgument (arg : List Char)
  deriving DecidableEq, Repr

/-- Outcome of the inner character loop of `shop_track` over one token
(src/shop.h:237-250): completed, or completed with
`has_param_in_next_arg = true`, or aborted fatally. -/
inductive ScanRes where
  | ok (s : List shop_option)
  | pending (s : List shop_option)
  | err (e : TrackErr)
  deriving DecidableEq, Repr

/-- The inner loop of `shop_track` (src/shop.h:237-250) over the characters
after the `'-'`: look each name up (fatal if unknown), mark it used; at the
first argument-taking option, either take the rest of the token as its value
(`arg[j+1] != '\0'`) or report a pending value, and stop. -/
def scanToken : List shop_option → List Char → ScanRes
  | s, [] => .ok s
  | s, c :: rest =>
    match shop__find c s with
    | none => .err (.unknownOption c)
    | some opt =>
      if opt.take_arg then
        match rest with
        | [] => .pending (markUsed c s)
        | _ :: _ => .ok (pushItem c (String.mk rest) (markUsed c s))
      else scanToken (markUsed c s) rest

/-- The re-scan at src/shop.h:257-263: find the first character of the token
whose option is registered and takes an argument, and push the next argv
entry as its value (silently does nothing if none matches). -/
def assignPending (v : String) : List shop_option → List Char → List shop_option
  | s, [] => s
  | s, c :: rest =>
    match shop__find c s with
    | some opt => if opt.take_arg then pushItem c v s else assignPending v s rest
    | none => assignPending v s rest

/-- Embeds `shop_track` (src/shop.h:228-266) over `argv[1:]` (the C loop
starts at `i = 1`).  Arguments not beginning with `'-'` are skipped; after a
pending token the next argv entry is consumed as the value, and running out
of entries is the second fatal error. -/
def shop_track : List shop_option → List (List Char) → Except TrackErr (List shop_option)
  | s, [] => .ok s
  | s, arg :: args =>
    if arg.head? = some '-' then
      match scanToken s arg.tail with
      | .err e => .error e
      | .ok s1 => shop_track s1 args
      | .pending s1 =>
        match args with
        | [] => .error (.missingArgument arg)
        | v :: args2 => shop_track (assignPending (String.mk v) s1 arg.tail) args2
    else shop_track s args

/-- Result of a successful `shop_sget` (src/shop.h:326-350): what is written
through `dst`.  The `scanned` constructor embeds the `sscanf` fallback branch
(src/shop.h:346) abstractly — whether `sscanf` itself succeeds depends on C
library parsing that no claim concerns; the constructor records the format
and raw value handed to it. -/
inductive SgetVal where
  | str (v : String)
  | boolean (b : Bool)
  | scanned (fmt : String) (v : String)
  deriving DecidableEq, Repr

/-- Embeds `shop_sget` (src/shop.h:326-350): the guard returns false
(= `none`) for unknown name, unused option, flag-only option, NULL or empty
`scan_fmt`, or out-of-range index; then dispatches on the format token. -/
def shop_sget (c : Char) (idx : Nat) (s : List shop_option) : Option SgetVal :=
  match shop__find c s with
  | none => none
  | some opt =>
    if opt.used = false then none
    else if opt.take_arg = false then none
    else
      match opt.scan_fmt with
      | none => none
      | some fmt =>
        if fmt = "" then none
        else
          match opt.items.get? idx with
          | none => none
          | some value =>
            if fmt = "%s" then some (.str value)
            else if fmt = "%b" then
              some (.boolean (value = "true" || value = "yes" || value = "1" || value = "on"))
            else some (.scanned fmt value)

/-- Embeds `shop_len` (src/shop.h:321-324); like `shop_desc`, the C code
dereferences the lookup without a NULL check, so `none` embeds that crash. -/
def shop_len (c : Char) (s : List shop_option) : Option Nat :=
  match shop__find c s with
  | none => none
  | some opt => some opt.items.length

/-- The `take_arg` field seen through the lookup; `none` = name unregistered. -/
def findTakeArg (c : Char) (s : List shop_option) : Option Bool :=
  (shop__find c s).map shop_option.take_arg

/-- The value list seen through the lookup; `none` = name unregistered. -/
def findItems (c : Char) (s : List shop_option) : Option (List String) :=
  (shop__find c s).map shop_option.items

/-! ## Lookup / update lemmas -/

theorem find_updateLast_self (c : Char) (f : shop_option → shop_option)
    (hf : ∀ o, (f o).name = o.name) (s : List shop_option) :
    shop__find c (updateLast c f s) = (shop__find c s).map f := by
  induction s with
  | nil => rfl
  | cons o os ih =>
    simp only [updateLast]
    by_cases hsome : (shop__find c os).isSome
    · obtain ⟨r, hr⟩ := Option.isSome_iff_exists.mp hsome
      simp only [hsome, if_true, shop__find, ih, hr, Option.map_some']
    · have hnone : shop__find c os = none := Option.not_isSome_iff_eq_none.mp hsome
      simp only [hsome, if_false, Bool.false_eq_true]
      by_cases hname : o.name = c
      · simp only [hname, if_true, shop__find, hnone, hf o, Option.map_none', Option.map_some',
          if_pos hname]
      · simp only [hname, if_false, shop__find, hnone, if_neg hname, Option.map_none']

theorem find_updateLast_ne (c d : Char) (f : shop_option → shop_option)
    (hf : ∀ o, (f o).name = o.name) (hne : d ≠ c) (s : List shop_option) :
    shop__find d (updateLast c f s) = shop__find d s := by
  induction s with
  | nil => rfl
  | cons o os ih =>
    simp only [updateLast]
    by_cases hsome : (shop__find c os).isSome
    · simp only [hsome, if_true, shop__find, ih]
    · simp only [hsome, if_false, Bool.false_eq_true]
      by_cases hname : o.name = c
      ·
        have hdo : ¬ (f o).name = d := by rw [hf o, hname]; exact fun h => hne h.symm
        have hdo' : ¬ o.name = d := by rw [hname]; exact fun h => hne h.symm
        rw [if_pos hname]
        cases hd : shop__find d os <;>
          simp only [shop__find, hd, if_neg hdo, if_neg hdo']
      · simp only [hname, if_false]

theorem mem_updateLast (c : Char) (f : shop_option → shop_option) (s : List shop_option)
    (o' : shop_option) (h : o' ∈ updateLast c f s) :
    o' ∈ s ∨ ∃ o, shop__find c s = some o ∧ o' = f o := by
  induction s with
  | nil => simp only [updateLast, List.not_mem_nil] at h
  | cons o os ih =>
    simp only [updateLast] at h
    by_cases hsome : (shop__find c os).isSome
    · simp only [hsome, if_true, List.mem_cons] at h
      rcases h with h | h
      · exact Or.inl (by simp [h])
      · rcases ih h with h' | ⟨o₂, h₂, h₃⟩
        · exact Or.inl (List.mem_cons_of_mem _ h')
        · refine Or.inr ⟨o₂, ?_, h₃⟩
          simp only [shop__find, h₂]
    · have hnone : shop__find c os = none := Option.not_isSome_iff_eq_none.mp hsome
      simp only [hsome, if_false, Bool.false_eq_true] at h
      by_cases hname : o.name = c
      · simp only [hname, if_true, List.mem_cons] at h
        rcases h with h | h
        · refine Or.inr ⟨o, ?_, h⟩
          simp only [shop__find, hnone, if_pos hname]
        · exact Or.inl (List.mem_cons_of_mem _ h)
      · simp only [hname, if_false, List.mem_cons] at h
        rcases h with h | h
        · exact Or.inl (by simp [h])
        · exact Or.inl (List.mem_cons_of_mem _ h)

theorem findTakeArg_markUsed (c d : Char) (s : List shop_option) :
    findTakeArg d (markUsed c s) = findTakeArg d s := by
  unfold findTakeArg markUsed
  by_cases h : d = c
  · subst h
    rw [find_updateLast_self d (fun o => { o with used := true }) (fun _ => rfl)]
    cases shop__find d s <;> rfl
  · rw [find_updateLast_ne c d (fun o => { o with used := true }) (fun _ => rfl) h]

theorem findTakeArg_pushItem (c d : Char) (v : String) (s : List shop_option) :
    findTakeArg d (pushItem c v s) = findTakeArg d s := by
  unfold findTakeArg pushItem
  by_cases h : d = c
  · subst h
    rw [find_updateLast_self d (fun o => { o with items := o.items ++ [v] }) (fun _ => rfl)]
    cases shop__find d s <;> rfl
  · rw [find_updateLast_ne c d (fun o => { o with items := o.items ++ [v] }) (fun _ => rfl) h]

theorem find_markUsed_self (c : Char) (s : List shop_option) :
    shop__find c (markUsed c s) = (shop__find c s).map (fun o => { o with used := true }) :=
  find_updateLast_self c (fun o => { o with used := true }) (fun _ => rfl) s

theorem find_pushItem_self (c : Char) (v : String) (s : List shop_option) :
    shop__find c (pushItem c v s)
      = (shop__find c s).map (fun o => { o with items := o.items ++ [v] }) :=
  find_updateLast_self c (fun o => { o with items := o.items ++ [v] }) (fun _ => rfl) s

/-- The registry state carried by a non-fatal scan outcome. -/
def ScanRes.state? : ScanRes → Option (List shop_option)
  | .ok s => some s
  | .pending s => some s
  | .err _ => none

theorem assignPending_findTakeArg (d : Char) (v : String) (tok : List Char) :
    ∀ s, findTakeArg d (assignPending v s tok) = findTakeArg d s := by
  induction tok with
  | nil => intro s; rfl
  | cons c rest ih =>
    intro s
    simp only [assignPending]
    cases hf : shop__find c s with
    | none => exact ih s
    | some opt =>
      by_cases hta : opt.take_arg
      · simp only [hta, if_true, findTakeArg_pushItem]
      · simp only [hta, if_false, Bool.false_eq_true, ih s]

theorem scanToken_findTakeArg (d : Char) (tok : List Char) :
    ∀ s s', (scanToken s tok).state? = some s' → findTakeArg d s' = findTakeArg d s := by
  induction tok with
  | nil =>
    intro s s' h
    simp only [scanToken, ScanRes.state?, Option.some_inj] at h
    rw [h]
  | cons c rest ih =>
    intro s s' h
    simp only [scanToken] at h
    cases hf : shop__find c s with
    | none => rw [hf] at h; simp [ScanRes.state?] at h
    | some opt =>
      rw [hf] at h
      by_cases hta : opt.take_arg
      · simp only [hta, if_true] at h
        cases rest with
        | nil =>
          simp only [ScanRes.state?, Option.some_inj] at h
          rw [← h, findTakeArg_markUsed]
        | cons x xs =>
          simp only [ScanRes.state?, Option.some_inj] at h
          rw [← h, findTakeArg_pushItem, findTakeArg_markUsed]
      · simp only [hta, if_false, Bool.false_eq_true] at h
        rw [ih _ _ h, findTakeArg_markUsed]

/-- C line 233: `if (arg[0] != '-') continue;` — non-option arguments are
skipped without any effect on the registry. -/
theorem shop_track_skip (s : List shop_option) (a : List Char) (args : List (List Char))
    (h : a.head? ≠ some '-') : shop_track s (a :: args) = shop_track s args := by
  rw [shop_track.eq_def]
  simp only [if_neg h]

theorem shop_track_dash_err (s : List shop_option) (tok : List Char)
    (args : List (List Char)) (e : TrackErr) (h : scanToken s tok = .err e) :
    shop_track s (('-' :: tok) :: args) = .error e := by
  rw [shop_track.eq_def]
  simp only [List.head?_cons, if_pos rfl, List.tail_cons, h, if_true]

theorem shop_track_dash_ok (s s1 : List shop_option) (tok : List Char)
    (args : List (List Char)) (h : scanToken s tok = .ok s1) :
    shop_track s (('-' :: tok) :: args) = shop_track s1 args := by
  rw [shop_track.eq_def]
  simp only [List.head?_cons, if_pos rfl, List.tail_cons, h, if_true]

theorem shop_track_dash_pending_nil (s s1 : List shop_option) (tok : List Char)
    (h : scanToken s tok = .pending s1) :
    shop_track s [('-' :: tok)] = .error (.missingArgument ('-' :: tok)) := by
  rw [shop_track.eq_def]
  simp only [List.head?_cons, if_pos rfl, List.tail_cons, h, if_true]

theorem shop_track_dash_pending_cons (s s1 : List shop_option) (tok v : List Char)
    (args2 : List (List Char)) (h : scanToken s tok = .pending s1) :
    shop_track s (('-' :: tok) :: v :: args2)
      = shop_track (assignPending (String.mk v) s1 tok) args2 := by
  rw [shop_track.eq_def]
  simp only [List.head?_cons, if_pos rfl, List.tail_cons, h, if_true]

theorem shop_track_findTakeArg (d : Char) :
    ∀ (args : List (List Char)) (s s' : List shop_option),
      shop_track s args = .ok s' → findTakeArg d s' = findTakeArg d s
  | [], s, s', h => by
      simp only [shop_track, Except.ok.injEq] at h; rw [h]
  | [] :: args, s, s', h => by
      rw [shop_track_skip s [] args (by simp)] at h
      exact shop_track_findTakeArg d args s s' h
  | (a :: tok) :: args, s, s', h => by
      by_cases ha : a = '-'
      · subst ha
        cases hscan : scanToken s tok with
        | err e =>
          rw [shop_track_dash_err s tok args e hscan] at h
          cases h
        | ok s1 =>
          rw [shop_track_dash_ok s s1 tok args hscan] at h
          rw [shop_track_findTakeArg d args s1 s' h,
            scanToken_findTakeArg d tok s s1 (by rw [hscan]; rfl)]
        | pending s1 =>
          cases args with
          | nil =>
            rw [shop_track_dash_pending_nil s s1 tok hscan] at h
            cases h
          | cons v args2 =>
            rw [shop_track_dash_pending_cons s s1 tok v args2 hscan] at h
            rw [shop_track_findTakeArg d args2 _ s' h, assignPending_findTakeArg,
              scanToken_findTakeArg d tok s s1 (by rw [hscan]; rfl)]
      · rw [shop_track_skip s (a :: tok) args (by simpa using ha)] at h
        exact shop_track_findTakeArg d args s s' h

/-! ## Characterising `shop_set` position by position (claim C1) -/

/-- The `take_arg` flags produced by the inner loop of `shop_set` for one
token: every character `false` except the last one. -/
def tokMarks : List Char → List Bool
  | [] => []
  | [_] => [true]
  | _ :: cs => false :: tokMarks cs

/-- Whether a spec suffix begins with a delimiter (or has ended): exactly the
condition under which the preceding option character closes its token. -/
def headDelimOrEnd : List Char → Bool
  | [] => true
  | d :: _ => isDelim d

/-- Position-based description of the pre-retrofit `take_arg` flags: an option
character is marked iff its immediate successor in the spec is `':'`, `' '`,
or the end of the string. -/
def specMarks : List Char → List Bool
  | [] => []
  | c :: cs => if isDelim c then specMarks cs else headDelimOrEnd cs :: specMarks cs

/-- The marking the claim asserts: an option character is marked iff its
immediate successor is the delimiter `':'` (so not for `' '` or end). -/
def claimMarks : List Char → List Bool
  | [] => []
  | c :: cs =>
    if isDelim c then claimMarks cs
    else (match cs with
          | ':' :: _ => true
          | _ => false) :: claimMarks cs

/-- The retrofit, on a list of flags: force the last one to `false`. -/
def unmarkLastBool : List Bool → List Bool
  | [] => []
  | [_] => [false]
  | b :: bs => b :: unmarkLastBool bs

theorem tokenOpts_names (t : List Char) : (tokenOpts t).map shop_option.name = t := by
  induction t with
  | nil => rfl
  | cons c cs ih =>
    cases cs with
    | nil => rfl
    | cons d ds => simp only [tokenOpts, List.map_cons, ih]

theorem tokenOpts_marks (t : List Char) :
    (tokenOpts t).map shop_option.take_arg = tokMarks t := by
  induction t with
  | nil => rfl
  | cons c cs ih =>
    cases cs with
    | nil => rfl
    | cons d ds => simp only [tokenOpts, tokMarks, List.map_cons, ih]

theorem tokMarks_replicate (t : List Char) (h : t ≠ []) :
    tokMarks t = List.replicate (t.length - 1) false ++ [true] := by
  induction t with
  | nil => exact absurd rfl h
  | cons c cs ih =>
    cases cs with
    | nil => rfl
    | cons d ds =>
      simp only [tokMarks, ih (by simp), List.length_cons, Nat.add_sub_cancel]
      rw [List.replicate_succ]
      simp

theorem setRaw_fold_names (ts : List (List Char)) :
    ((ts.foldr (fun t acc => tokenOpts t ++ acc) []).map shop_option.name) = ts.flatten := by
  induction ts with
  | nil => rfl
  | cons t ts ih => simp only [List.foldr_cons, List.map_append, tokenOpts_names, ih,
      List.flatten_cons]

theorem setRaw_fold_marks (ts : List (List Char)) :
    ((ts.foldr (fun t acc => tokenOpts t ++ acc) []).map shop_option.take_arg)
      = (ts.map tokMarks).flatten := by
  induction ts with
  | nil => rfl
  | cons t ts ih => simp only [List.foldr_cons, List.map_append, tokenOpts_marks, ih,
      List.map_cons, List.flatten_cons]

theorem specTokensAux_join (spec : List Char) :
    ∀ acc, (specTokensAux spec acc).flatten
      = acc.reverse ++ spec.filter (fun c => !isDelim c) := by
  induction spec with
  | nil =>
    intro acc
    by_cases h : acc.isEmpty
    · have : acc = [] := List.isEmpty_iff.mp h
      subst this
      simp [specTokensAux]
    · have hne : acc ≠ [] := by simpa [List.isEmpty_iff] using h
      simp [specTokensAux, hne]
  | cons c cs ih =>
    intro acc
    by_cases hc : isDelim c
    · by_cases h : acc.isEmpty
      · have : acc = [] := List.isEmpty_iff.mp h
        subst this
        simp [specTokensAux, hc, ih [], List.filter_cons]
      · have hne : acc ≠ [] := by simpa [List.isEmpty_iff] using h
        simp [specTokensAux, hc, hne, ih [], List.filter_cons]
    · simp [specTokensAux, hc, ih (c :: acc), List.filter_cons]

theorem specTokensAux_marks (spec : List Char) :
    ∀ acc, ((specTokensAux spec acc).map tokMarks).flatten
      = (if acc.isEmpty then []
         else List.replicate (acc.length - 1) false ++ [headDelimOrEnd spec])
        ++ specMarks spec := by
  induction spec with
  | nil =>
    intro acc
    by_cases h : acc.isEmpty
    · have : acc = [] := List.isEmpty_iff.mp h
      subst this
      simp [specTokensAux, specMarks]
    · have hne : acc ≠ [] := by simpa [List.isEmpty_iff] using h
      have hrev : acc.reverse ≠ [] := by simpa using hne
      simp [specTokensAux, hne, tokMarks_replicate _ hrev, specMarks, headDelimOrEnd]
  | cons c cs ih =>
    intro acc
    by_cases hc : isDelim c
    · by_cases h : acc.isEmpty
      · have : acc = [] := List.isEmpty_iff.mp h
        subst this
        simp [specTokensAux, hc, ih [], specMarks]
      · have hne : acc ≠ [] := by simpa [List.isEmpty_iff] using h
        have hrev : acc.reverse ≠ [] := by simpa using hne
        simp [specTokensAux, hc, hne, ih [], tokMarks_replicate _ hrev, specMarks,
          headDelimOrEnd]
    · have hstep : ((specTokensAux cs (c :: acc)).map tokMarks).flatten
          = (List.replicate acc.length false ++ [headDelimOrEnd cs]) ++ specMarks cs := by
        rw [ih (c :: acc)]
        simp
      by_cases h : acc.isEmpty
      · have : acc = [] := List.isEmpty_iff.mp h
        subst this
        simp [specTokensAux, hc, hstep, specMarks, headDelimOrEnd]
      · have hne : acc ≠ [] := by simpa [List.isEmpty_iff] using h
        have hlen : acc.length - 1 + 1 = acc.length := by
          cases acc with
          | nil => exact absurd rfl hne
          | cons x xs => simp
        have hsp : specTokensAux (c :: cs) acc = specTokensAux cs (c :: acc) := by
          simp [specTokensAux, hc]
        rw [hsp, hstep]
        simp only [if_neg h, specMarks, if_neg (by simp [hc] : ¬ isDelim c = true),
          headDelimOrEnd, hc]
        rw [← hlen, List.replicate_succ']
        simp

theorem unmarkLast_names (l : List shop_option) :
    (unmarkLast l).map shop_option.name = l.map shop_option.name := by
  induction l with
  | nil => rfl
  | cons o os ih =>
    cases os with
    | nil => rfl
    | cons o2 os2 => simp only [unmarkLast, List.map_cons, List.map_cons] at ih ⊢; rw [ih]

theorem unmarkLast_marks (l : List shop_option) :
    (unmarkLast l).map shop_option.take_arg = unmarkLastBool (l.map shop_option.take_arg) := by
  induction l with
  | nil => rfl
  | cons o os ih =>
    cases os with
    | nil => rfl
    | cons o2 os2 =>
      simp only [unmarkLast, unmarkLastBool, List.map_cons] at ih ⊢
      rw [ih]

/-- C1, counterexample.  The claim predicts `take_arg = true` exactly for
characters immediately followed by `':'` (then the retrofit).  On the spec
`"ab c:"` the claim marks `[a,b,c]` as `[false,false,true]` (`b` is followed
by a space, not `':'`), but `shop_set` marks `b` as `true`: `b` is the last
character of its `strtok(": ")` token, and the retrofit only touches the
last option `c`. -/
theorem claim_C1_counterexample :
    ¬ ((shop_set ['a', 'b', ' ', 'c', ':']).map shop_option.take_arg
        = (if (['a', 'b', ' ', 'c', ':'] : List Char).getLast? = some ':'
           then claimMarks ['a', 'b', ' ', 'c', ':']
           else unmarkLastBool (claimMarks ['a', 'b', ' ', 'c', ':']))) := by decide

/-- C1 (amended): building a registry from a compact spec registers exactly
the non-delimiter characters, in order, and an option's `take_arg` is `true`
iff its character is immediately followed by `':'`, `' '`, **or the end of
the spec** (i.e. it is the last character of its `strtok(": ")` token);
except that when the final character of the whole spec is not `':'`, the very
last registered option is forced to `take_arg = false` regardless of how it
was marked.  (The hypothesis excludes specs with no option character, where
the C retrofit indexes an empty array — undefined behaviour.) -/
theorem claim_C1_shop_set_marking (spec : List Char)
    (h : spec.any (fun c => !isDelim c) = true) :
    (shop_set spec).map shop_option.name = spec.filter (fun c => !isDelim c)
    ∧ (shop_set spec).map shop_option.take_arg
        = (if spec.getLast? = some ':' then specMarks spec
           else unmarkLastBool (specMarks spec)) := by
  have hraw_names : (shop_setRaw spec).map shop_option.name
      = spec.filter (fun c => !isDelim c) := by
    rw [shop_setRaw, setRaw_fold_names, specTokens, specTokensAux_join spec []]
    rfl
  have hraw_marks : (shop_setRaw spec).map shop_option.take_arg = specMarks spec := by
    rw [shop_setRaw, setRaw_fold_marks, specTokens, specTokensAux_marks spec []]
    rfl
  constructor
  · rw [shop_set]
    by_cases hlast : spec.getLast? = some ':'
    · rw [if_pos hlast, hraw_names]
    · rw [if_neg hlast, unmarkLast_names, hraw_names]
  · rw [shop_set]
    by_cases hlast : spec.getLast? = some ':'
    · rw [if_pos hlast, if_pos hlast, hraw_marks]
    · rw [if_neg hlast, if_neg hlast, unmarkLast_marks, hraw_marks]

/-- Witness for C1 at the spec `"vn:f:h"` from the library's own header
example. -/
theorem claim_C1_witness :
    ((['v', 'n', ':', 'f', ':', 'h'] : List Char).any (fun c => !isDelim c) = true)
    ∧ ((shop_set ['v', 'n', ':', 'f', ':', 'h']).map shop_option.name
          = (['v', 'n', ':', 'f', ':', 'h'] : List Char).filter (fun c => !isDelim c)
      ∧ (shop_set ['v', 'n', ':', 'f', ':', 'h']).map shop_option.take_arg
          = (if (['v', 'n', ':', 'f', ':', 'h'] : List Char).getLast? = some ':'
             then specMarks ['v', 'n', ':', 'f', ':', 'h']
             else unmarkLastBool (specMarks ['v', 'n', ':', 'f', ':', 'h']))) :=
  ⟨by decide, claim_C1_shop_set_marking ['v', 'n', ':', 'f', ':', 'h'] (by decide)⟩

/-! ## Accessor theorems -/

/-- Shared evaluation of the `"%b"` branch of `shop_sget` under the guard
conditions. -/
theorem sget_bool_eval (s : List shop_option) (c : Char) (idx : Nat)
    (opt : shop_option) (value : String)
    (hfind : shop__find c s = some opt) (hused : opt.used = true)
    (hta : opt.take_arg = true) (hfmt : opt.scan_fmt = some "%b")
    (hval : opt.items.get? idx = some value) :
    shop_sget c idx s
      = some (.boolean (value = "true" || value = "yes" || value = "1" || value = "on")) := by
  simp only [shop_sget, hfind, hused, hta, hfmt, hval]
  simp

/-- C4: the typed accessor returns the soft-miss signal (false, `out`
untouched — embedded as `none`) whenever the name is unknown, the option was
never used, the option is flag-only, no format (or the empty format) was
registered, or the index is out of range. -/
theorem claim_C4_sget_guard (s : List shop_option) (c : Char) (idx : Nat)
    (h : shop__find c s = none
      ∨ ∃ opt, shop__find c s = some opt
          ∧ (opt.used = false ∨ opt.take_arg = false ∨ opt.scan_fmt = none
             ∨ opt.scan_fmt = some "" ∨ opt.items.length ≤ idx)) :
    shop_sget c idx s = none := by
  rcases h with h | ⟨opt, hfind, hcond⟩
  · simp [shop_sget, h]
  · rcases hcond with h1 | h1 | h1 | h1 | h1
    · simp [shop_sget, hfind, h1]
    · simp [shop_sget, hfind, h1]
    · simp [shop_sget, hfind, h1]
    · simp [shop_sget, hfind, h1]
    · have hget : opt.items.get? idx = none := List.get?_eq_none.mpr h1
      cases hf : opt.scan_fmt with
      | none => simp [shop_sget, hfind, hf]
      | some fmt =>
        simp only [shop_sget, hfind, hf]
        simp [List.getElem?_eq_none h1, hget]

/-- Witness for C4: a registered but never-used option. -/
theorem claim_C4_witness :
    (shop__find 'f' (shop_set ['f', ':', 'x']) = none
      ∨ ∃ opt, shop__find 'f' (shop_set ['f', ':', 'x']) = some opt
          ∧ (opt.used = false ∨ opt.take_arg = false ∨ opt.scan_fmt = none
             ∨ opt.scan_fmt = some "" ∨ opt.items.length ≤ 0))
    ∧ shop_sget 'f' 0 (shop_set ['f', ':', 'x']) = none :=
  ⟨by decide, claim_C4_sget_guard _ 'f' 0 (by decide)⟩

/-- C5: with registered format `"%b"`, the accessor writes `true` exactly for
a stored value that is case-sensitively one of `"true"`, `"yes"`, `"1"`,
`"on"`, and `false` for every other string. -/
theorem claim_C5_sget_bool (s : List shop_option) (c : Char) (idx : Nat)
    (opt : shop_option) (value : String)
    (hfind : shop__find c s = some opt) (hused : opt.used = true)
    (hta : opt.take_arg = true) (hfmt : opt.scan_fmt = some "%b")
    (hval : opt.items.get? idx = some value) :
    (shop_sget c idx s = some (.boolean true)
        ↔ value ∈ (["true", "yes", "1", "on"] : List String))
    ∧ (shop_sget c idx s = some (.boolean false)
        ↔ value ∉ (["true", "yes", "1", "on"] : List String)) := by
  rw [sget_bool_eval s c idx opt value hfind hused hta hfmt hval]
  constructor
  · simp [List.mem_cons, or_assoc]
  · simp only [List.mem_cons, List.not_mem_nil, or_false, Option.some_inj,
      SgetVal.boolean.injEq]
    constructor
    · intro hb
      simp only [Bool.or_eq_false_iff, decide_eq_false_iff_not] at hb
      tauto
    · intro hb
      simp only [Bool.or_eq_false_iff, decide_eq_false_iff_not]
      tauto

/-- Witness for C5: the stored value `"YES"` (wrong case) yields `false`. -/
theorem claim_C5_witness :
    shop__find 'b' [⟨'b', none, some "%b", true, true, ["YES"]⟩]
      = some ⟨'b', none, some "%b", true, true, ["YES"]⟩
    ∧ shop_sget 'b' 0 [⟨'b', none, some "%b", true, true, ["YES"]⟩]
      = some (.boolean false) :=
  ⟨by decide,
    (claim_C5_sget_bool [⟨'b', none, some "%b", true, true, ["YES"]⟩] 'b' 0
      ⟨'b', none, some "%b", true, true, ["YES"]⟩ "YES"
      (by decide) rfl rfl rfl (by decide)).2.mpr (by decide)⟩

/-- C10: for a used, argument-taking option with format `"%b"` and an
in-range index, `shop_sget` always succeeds (returns true); a non-truthy
stored value yields output `false` but never a soft miss. -/
theorem claim_C10_sget_bool_total (s : List shop_option) (c : Char) (idx : Nat)
    (opt : shop_option)
    (hfind : shop__find c s = some opt) (hused : opt.used = true)
    (hta : opt.take_arg = true) (hfmt : opt.scan_fmt = some "%b")
    (hidx : idx < opt.items.length) :
    ∃ b, shop_sget c idx s = some (.boolean b) := by
  obtain ⟨value, hval⟩ : ∃ v, opt.items.get? idx = some v :=
    ⟨opt.items.get ⟨idx, hidx⟩, List.get?_eq_get hidx⟩
  exact ⟨_, sget_bool_eval s c idx opt value hfind hused hta hfmt hval⟩

/-- Witness for C10: value `"maybe"` is outside the truthy set, yet the call
succeeds (with output `false`), distinguishable from an absent option. -/
theorem claim_C10_witness :
    shop__find 'b' [⟨'b', none, some "%b", true, true, ["maybe"]⟩]
      = some ⟨'b', none, some "%b", true, true, ["maybe"]⟩
    ∧ ∃ b, shop_sget 'b' 0 [⟨'b', none, some "%b", true, true, ["maybe"]⟩]
      = some (.boolean b) :=
  ⟨by decide,
    claim_C10_sget_bool_total [⟨'b', none, some "%b", true, true, ["maybe"]⟩] 'b' 0
      ⟨'b', none, some "%b", true, true, ["maybe"]⟩
      (by decide) rfl rfl rfl (by decide)⟩

/-- C9: querying use of an unregistered name returns the absence signal
(NULL), exactly as for a registered-but-unused option; `shop_use` is total —
it checks the lookup result before dereferencing, so it never fails and
never mutates (it is a pure function of the registry). -/
theorem claim_C9_use_characterisation (s : List shop_option) (c : Char) :
    shop_use c s
      = if (shop__find c s).map shop_option.used = some true
        then shop__find c s else none := by
  cases hf : shop__find c s with
  | none => simp [shop_use, hf]
  | some o =>
    by_cases hu : o.used
    · simp [shop_use, hf, hu]
    · simp [shop_use, hf, hu]

/-- C8: `shop_desc` with an unknown name.  `shop__find` returns NULL and
`shop_desc` (src/shop.h:216-220) dereferences it *without any check* — no
diagnostic is printed and no `exit(EXIT_FAILURE)` runs, unlike the
`SHOP_ASSERT` paths in `shop_track`; the embedding returns the crash marker
`none`.  This contradicts the documented fatal-diagnostic contract. -/
theorem claim_C8_desc_unknown_null_deref :
    shop__find 'z' (shop_set ['a', 'b']) = none
    ∧ shop_desc 'z' (some "%d") (some "unknown name") (shop_set ['a', 'b']) = none := by
  decide

/-! ## Value lists only ever grow by appending (claim C7) -/

theorem findItems_markUsed (c d : Char) (s : List shop_option) :
    findItems d (markUsed c s) = findItems d s := by
  unfold findItems markUsed
  by_cases h : d = c
  · subst h
    rw [find_updateLast_self d (fun o => { o with used := true }) (fun _ => rfl)]
    cases shop__find d s <;> rfl
  · rw [find_updateLast_ne c d (fun o => { o with used := true }) (fun _ => rfl) h]

theorem findItems_pushItem_self (c : Char) (v : String) (s : List shop_option) :
    findItems c (pushItem c v s) = (findItems c s).map (· ++ [v]) := by
  unfold findItems pushItem
  rw [find_updateLast_self c (fun o => { o with items := o.items ++ [v] }) (fun _ => rfl)]
  cases shop__find c s <;> rfl

theorem findItems_pushItem_ne (c d : Char) (v : String) (s : List shop_option)
    (h : d ≠ c) : findItems d (pushItem c v s) = findItems d s := by
  unfold findItems pushItem
  rw [find_updateLast_ne c d (fun o => { o with items := o.items ++ [v] }) (fun _ => rfl) h]

theorem appendsTo_refl (s : List shop_option) (d : Char) :
    ∃ n, findItems d s = (findItems d s).map (· ++ n) :=
  ⟨[], by cases hi : findItems d s <;> simp [hi]⟩

theorem appendsTo_trans (s1 s2 s3 : List shop_option) (d : Char)
    (h1 : ∃ n, findItems d s2 = (findItems d s1).map (· ++ n))
    (h2 : ∃ n, findItems d s3 = (findItems d s2).map (· ++ n)) :
    ∃ n, findItems d s3 = (findItems d s1).map (· ++ n) := by
  obtain ⟨n1, h1⟩ := h1
  obtain ⟨n2, h2⟩ := h2
  refine ⟨n1 ++ n2, ?_⟩
  rw [h2, h1, Option.map_map]
  cases findItems d s1 with
  | none => rfl
  | some l => simp [Function.comp, List.append_assoc]

theorem scanToken_appendsItems (d : Char) (tok : List Char) :
    ∀ s s', (scanToken s tok).state? = some s' →
      ∃ n, findItems d s' = (findItems d s).map (· ++ n) := by
  induction tok with
  | nil =>
    intro s s' h
    simp only [scanToken, ScanRes.state?, Option.some_inj] at h
    subst h
    exact appendsTo_refl s d
  | cons c rest ih =>
    intro s s' h
    simp only [scanToken] at h
    cases hf : shop__find c s with
    | none => rw [hf] at h; simp [ScanRes.state?] at h
    | some opt =>
      rw [hf] at h
      by_cases hta : opt.take_arg
      · simp only [hta, if_true] at h
        cases rest with
        | nil =>
          simp only [ScanRes.state?, Option.some_inj] at h
          subst h
          exact ⟨[], by rw [findItems_markUsed]; cases hi : findItems d s <;> simp [hi]⟩
        | cons x xs =>
          simp only [ScanRes.state?, Option.some_inj] at h
          subst h
          by_cases hdc : d = c
          · subst hdc
            exact ⟨[String.mk (x :: xs)],
              by rw [findItems_pushItem_self, findItems_markUsed]⟩
          · exact ⟨[], by
              rw [findItems_pushItem_ne _ _ _ _ hdc, findItems_markUsed]
              cases hi : findItems d s <;> simp [hi]⟩
      · simp only [hta, if_false, Bool.false_eq_true] at h
        obtain ⟨n, hn⟩ := ih (markUsed c s) s' h
        exact ⟨n, by rw [hn, findItems_markUsed]⟩

theorem assignPending_appendsItems (d : Char) (v : String) (tok : List Char) :
    ∀ s, ∃ n, findItems d (assignPending v s tok) = (findItems d s).map (· ++ n) := by
  induction tok with
  | nil => intro s; simpa only [assignPending] using appendsTo_refl s d
  | cons c rest ih =>
    intro s
    simp only [assignPending]
    cases hf : shop__find c s with
    | none => exact ih s
    | some opt =>
      by_cases hta : opt.take_arg
      · simp only [hta, if_true]
        by_cases hdc : d = c
        · subst hdc; exact ⟨[v], by rw [findItems_pushItem_self]⟩
        · exact ⟨[], by
            rw [findItems_pushItem_ne _ _ _ _ hdc]
            cases hi : findItems d s <;> simp [hi]⟩
      · simp only [hta, if_false, Bool.false_eq_true]; exact ih s

theorem shop_track_appendsItems (d : Char) :
    ∀ (args : List (List Char)) (s s' : List shop_option),
      shop_track s args = .ok s' →
      ∃ n, findItems d s' = (findItems d s).map (· ++ n)
  | [], s, s', h => by
      simp only [shop_track, Except.ok.injEq] at h
      subst h
      exact appendsTo_refl s d
  | [] :: args, s, s', h => by
      rw [shop_track_skip s [] args (by simp)] at h
      exact shop_track_appendsItems d args s s' h
  | (a :: tok) :: args, s, s', h => by
      by_cases ha : a = '-'
      · subst ha
        cases hscan : scanToken s tok with
        | err e =>
          rw [shop_track_dash_err s tok args e hscan] at h
          cases h
        | ok s1 =>
          rw [shop_track_dash_ok s s1 tok args hscan] at h
          exact appendsTo_trans s s1 s' d
            (scanToken_appendsItems d tok s s1 (by rw [hscan]; rfl))
            (shop_track_appendsItems d args s1 s' h)
        | pending s1 =>
          cases args with
          | nil =>
            rw [shop_track_dash_pending_nil s s1 tok hscan] at h
            cases h
          | cons v args2 =>
            rw [shop_track_dash_pending_cons s s1 tok v args2 hscan] at h
            exact appendsTo_trans s s1 s' d
              (scanToken_appendsItems d tok s s1 (by rw [hscan]; rfl))
              (appendsTo_trans s1 _ s' d
                (assignPending_appendsItems d (String.mk v) tok s1)
                (shop_track_appendsItems d args2 _ s' h))
      · rw [shop_track_skip s (a :: tok) args (by simpa using ha)] at h
        exact shop_track_appendsItems d args s s' h

/-- The `Except.ok` projection, used to chain a tracking result into further
queries in concrete runs. -/
def okState : Except TrackErr (List shop_option) → Option (List shop_option)
  | .ok s => some s
  | .error _ => none

/-- C7: (1) with format `"%s"` the accessor returns the stored raw string
unchanged; (2) tracking only ever appends to an option's value list, so
previously collected values keep their positions (insertion order = order of
appearance); (3) concretely, spec `"t:"` with `-t 1 -t 2` collects
`["1", "2"]` in order and `shop_sget` returns `"1"` then `"2"` and soft-misses
at index 2. -/
theorem claim_C7_sget_str_roundtrip :
    (∀ (s : List shop_option) (c : Char) (i : Nat) (opt : shop_option) (v : String),
      shop__find c s = some opt → opt.used = true → opt.take_arg = true →
      opt.scan_fmt = some "%s" → opt.items.get? i = some v →
      shop_sget c i s = some (.str v))
    ∧ (∀ (args : List (List Char)) (s s' : List shop_option) (c : Char),
        shop_track s args = .ok s' →
        ∃ n, findItems c s' = (findItems c s).map (· ++ n))
    ∧ ((shop_desc 't' (some "%s") (some "number") (shop_set ['t', ':'])).bind
          (fun s1 => okState (shop_track s1 [['-', 't'], ['1'], ['-', 't'], ['2']]))).map
          (fun s2 => (findItems 't' s2, shop_sget 't' 0 s2, shop_sget 't' 1 s2,
            shop_sget 't' 2 s2))
        = some (some ["1", "2"], some (.str "1"), some (.str "2"), none) := by
  refine ⟨?_, ?_, by decide⟩
  · intro s c i opt v hfind hused hta hfmt hval
    simp only [shop_sget, hfind, hused, hta, hfmt, hval]
    simp
  · intro args s s' c h
    exact shop_track_appendsItems c args s s' h

/-- Witness for C7 at a concrete used `"%s"` option holding `["1", "2"]`. -/
theorem claim_C7_witness :
    (shop__find 't' [⟨'t', none, some "%s", true, true, ["1", "2"]⟩]
        = some ⟨'t', none, some "%s", true, true, ["1", "2"]⟩)
    ∧ shop_sget 't' 1 [⟨'t', none, some "%s", true, true, ["1", "2"]⟩]
        = some (.str "2") :=
  ⟨by decide,
    claim_C7_sget_str_roundtrip.1 [⟨'t', none, some "%s", true, true, ["1", "2"]⟩] 't' 1
      ⟨'t', none, some "%s", true, true, ["1", "2"]⟩ "2" (by decide) rfl rfl rfl (by decide)⟩

/-! ## Attached values, next-token values, combined groups (claim C2) -/

theorem findTakeArg_eq_some (s : List shop_option) (d : Char) (b : Bool) :
    findTakeArg d s = some b ↔ ∃ o, shop__find d s = some o ∧ o.take_arg = b := by
  unfold findTakeArg
  cases shop__find d s <;> simp

theorem scanToken_flag_unfold (s : List shop_option) (c : Char) (o : shop_option)
    (rest : List Char) (hfind : shop__find c s = some o) (hta : o.take_arg = false) :
    scanToken s (c :: rest) = scanToken (markUsed c s) rest := by
  simp only [scanToken, hfind, hta, Bool.false_eq_true, if_false]

theorem assignPending_skip (s : List shop_option) (c : Char) (o : shop_option)
    (v : String) (rest : List Char) (hfind : shop__find c s = some o)
    (hta : o.take_arg = false) :
    assignPending v s (c :: rest) = assignPending v s rest := by
  simp only [assignPending, hfind, hta, Bool.false_eq_true, if_false]

theorem shop_track_flag_single (s : List shop_option) (c : Char) (o : shop_option)
    (args : List (List Char)) (hfind : shop__find c s = some o) (hta : o.take_arg = false) :
    shop_track s (['-', c] :: args) = shop_track (markUsed c s) args := by
  have h : scanToken s [c] = .ok (markUsed c s) := by
    rw [scanToken_flag_unfold s c o [] hfind hta]; rfl
  exact shop_track_dash_ok s (markUsed c s) [c] args h

theorem shop_track_flag_step (s : List shop_option) (c : Char) (o : shop_option)
    (rest v : List Char) (args2 : List (List Char))
    (hfind : shop__find c s = some o) (hta : o.take_arg = false) :
    shop_track s (('-' :: c :: rest) :: v :: args2)
      = shop_track (markUsed c s) (('-' :: rest) :: v :: args2) := by
  have hscan : scanToken s (c :: rest) = scanToken (markUsed c s) rest :=
    scanToken_flag_unfold s c o rest hfind hta
  cases hres : scanToken (markUsed c s) rest with
  | err e =>
    rw [shop_track_dash_err s (c :: rest) (v :: args2) e (hscan.trans hres),
      shop_track_dash_err (markUsed c s) rest (v :: args2) e hres]
  | ok s1 =>
    rw [shop_track_dash_ok s s1 (c :: rest) (v :: args2) (hscan.trans hres),
      shop_track_dash_ok (markUsed c s) s1 rest (v :: args2) hres]
  | pending s1 =>
    rw [shop_track_dash_pending_cons s s1 (c :: rest) v args2 (hscan.trans hres),
      shop_track_dash_pending_cons (markUsed c s) s1 rest v args2 hres]
    have hpres : findTakeArg c s1 = some false := by
      have h1 := scanToken_findTakeArg c rest (markUsed c s) s1 (by rw [hres]; rfl)
      rw [h1, findTakeArg_markUsed]
      simp [findTakeArg, hfind, hta]
    obtain ⟨o1, hfind1, hta1⟩ := (findTakeArg_eq_some s1 c false).mp hpres
    rw [assignPending_skip s1 c o1 (String.mk v) rest hfind1 hta1]

/-- The heart of C2's first part: with `f` argument-taking and `v` nonempty,
the token `-fv` does exactly what `-f v` does: mark `f` used and append `v`. -/
theorem shop_track_attached_core (s : List shop_option) (f : Char) (opt : shop_option)
    (v : List Char) (args : List (List Char))
    (hfind : shop__find f s = some opt) (hta : opt.take_arg = true) (hv : v ≠ []) :
    shop_track s (('-' :: f :: v) :: args) = shop_track s (['-', f] :: v :: args) := by
  cases v with
  | nil => exact absurd rfl hv
  | cons x xs =>
    have h1 : scanToken s (f :: x :: xs)
        = .ok (pushItem f (String.mk (x :: xs)) (markUsed f s)) := by
      simp only [scanToken, hfind, hta, if_true]
    have h2 : scanToken s [f] = .pending (markUsed f s) := by
      simp only [scanToken, hfind, hta, if_true]
    have h3 : assignPending (String.mk (x :: xs)) (markUsed f s) [f]
        = pushItem f (String.mk (x :: xs)) (markUsed f s) := by
      have hfind1 : shop__find f (markUsed f s) = some { opt with used := true } := by
        rw [find_markUsed_self, hfind]; rfl
      simp only [assignPending, hfind1, hta, if_true]
    rw [shop_track_dash_ok s _ (f :: x :: xs) args h1,
      shop_track_dash_pending_cons s (markUsed f s) [f] (x :: xs) args h2, h3]

/-- C2: for an argument-taking option `f`, the single token `-fv` (value
attached, `v` nonempty) and the pair `-f v` (value in the next argument)
produce identical registry states; and a combined group of flag options
ending in `f` (`-vf w`) is equivalent to spelling every option as its own
dash token (`-v -f w`), marking the leading flags used and assigning the next
argument to `f`. -/
theorem claim_C2_attached_equals_separated :
    (∀ (s : List shop_option) (f : Char) (v : List Char) (args : List (List Char)),
      findTakeArg f s = some true → v ≠ [] →
      shop_track s (('-' :: f :: v) :: args) = shop_track s (['-', f] :: v :: args))
    ∧ (∀ (cs : List Char) (s : List shop_option) (f : Char) (w : List Char)
        (args : List (List Char)),
        (∀ c ∈ cs, findTakeArg c s = some false) → findTakeArg f s = some true →
        shop_track s (('-' :: (cs ++ [f])) :: w :: args)
          = shop_track s (cs.map (fun c => ['-', c]) ++ ['-', f] :: w :: args)) := by
  constructor
  · intro s f v args hf hv
    obtain ⟨opt, hfind, hta⟩ := (findTakeArg_eq_some s f true).mp hf
    exact shop_track_attached_core s f opt v args hfind hta hv
  · intro cs
    induction cs with
    | nil =>
      intro s f w args _ _
      simp only [List.nil_append, List.map_nil]
    | cons c cs' ih =>
      intro s f w args hflags hf
      obtain ⟨o, hfind, hta⟩ := (findTakeArg_eq_some s c false).mp (hflags c (by simp))
      have lhs := shop_track_flag_step s c o (cs' ++ [f]) w args hfind hta
      have rhs := shop_track_flag_single s c o
        (cs'.map (fun c => ['-', c]) ++ ['-', f] :: w :: args) hfind hta
      simp only [List.cons_append, List.map_cons]
      rw [lhs, rhs]
      exact ih (markUsed c s) f w args
        (fun d hd => by rw [findTakeArg_markUsed]; exact hflags d (by simp [hd]))
        (by rw [findTakeArg_markUsed]; exact hf)

/-- Witness for C2: spec `"vf:"`, tokens `-fdata` vs `-f data` and
`-vf data` vs `-v -f data`. -/
theorem claim_C2_witness :
    (findTakeArg 'f' (shop_set ['v', 'f', ':']) = some true
      ∧ (['d', 'a', 't', 'a'] : List Char) ≠ []
      ∧ (∀ c ∈ (['v'] : List Char), findTakeArg c (shop_set ['v', 'f', ':']) = some false))
    ∧ shop_track (shop_set ['v', 'f', ':'])
          [['-', 'f', 'd', 'a', 't', 'a']]
        = shop_track (shop_set ['v', 'f', ':']) [['-', 'f'], ['d', 'a', 't', 'a']]
    ∧ shop_track (shop_set ['v', 'f', ':'])
          [['-', 'v', 'f'], ['d', 'a', 't', 'a']]
        = shop_track (shop_set ['v', 'f', ':'])
            [['-', 'v'], ['-', 'f'], ['d', 'a', 't', 'a']] :=
  ⟨⟨by decide, by decide, by decide⟩,
    claim_C2_attached_equals_separated.1 (shop_set ['v', 'f', ':']) 'f'
      ['d', 'a', 't', 'a'] [] (by decide) (by decide),
    claim_C2_attached_equals_separated.2 ['v'] (shop_set ['v', 'f', ':']) 'f'
      ['d', 'a', 't', 'a'] [] (by decide) (by decide)⟩

/-! ## Exactly two fatal situations (claim C3) -/

theorem findTakeArg_eq_none (s : List shop_option) (d : Char) :
    findTakeArg d s = none ↔ shop__find d s = none := by
  unfold findTakeArg
  cases shop__find d s <;> simp

theorem scanToken_err (tok : List Char) :
    ∀ s e, scanToken s tok = .err e →
      ∃ c, e = .unknownOption c ∧ c ∈ tok ∧ shop__find c s = none := by
  induction tok with
  | nil => intro s e h; simp [scanToken] at h
  | cons c rest ih =>
    intro s e h
    simp only [scanToken] at h
    cases hf : shop__find c s with
    | none =>
      rw [hf] at h
      have h' : ScanRes.err (.unknownOption c) = ScanRes.err e := h
      cases h'
      exact ⟨c, rfl, by simp, hf⟩
    | some opt =>
      rw [hf] at h
      by_cases hta : opt.take_arg
      · simp only [hta, if_true] at h
        cases rest <;> simp at h
      · simp only [hta, if_false, Bool.false_eq_true] at h
        obtain ⟨c', he, hmem, hnone⟩ := ih (markUsed c s) e h
        refine ⟨c', he, by simp [hmem], ?_⟩
        rw [← findTakeArg_eq_none] at hnone ⊢
        rw [← findTakeArg_markUsed c c' s]
        exact hnone

theorem scanToken_pending_exists (tok : List Char) :
    ∀ s s', scanToken s tok = .pending s' → ∃ c ∈ tok, findTakeArg c s = some true := by
  induction tok with
  | nil => intro s s' h; simp [scanToken] at h
  | cons c rest ih =>
    intro s s' h
    simp only [scanToken] at h
    cases hf : shop__find c s with
    | none => rw [hf] at h; cases h
    | some opt =>
      rw [hf] at h
      by_cases hta : opt.take_arg
      · exact ⟨c, by simp, by simp [findTakeArg, hf, hta]⟩
      · simp only [hta, if_false, Bool.false_eq_true] at h
        obtain ⟨c', hmem, htrue⟩ := ih (markUsed c s) s' h
        refine ⟨c', by simp [hmem], ?_⟩
        rw [← findTakeArg_markUsed c c' s]
        exact htrue

theorem shop_track_error_characterisation :
    ∀ (args : List (List Char)) (s : List shop_option) (e : TrackErr),
      shop_track s args = .error e →
      (∃ c, e = .unknownOption c ∧ shop__find c s = none
        ∧ ∃ tok, ('-' :: tok) ∈ args ∧ c ∈ tok)
      ∨ (∃ tok, e = .missingArgument ('-' :: tok) ∧ args.getLast? = some ('-' :: tok)
        ∧ ∃ c ∈ tok, findTakeArg c s = some true)
  | [], s, e, h => by simp [shop_track] at h
  | [] :: args, s, e, h => by
      rw [shop_track_skip s [] args (by simp)] at h
      rcases shop_track_error_characterisation args s e h with
        ⟨c, he, hnone, tok, hmem, hc⟩ | ⟨tok, he, hlast, hex⟩
      · exact Or.inl ⟨c, he, hnone, tok, List.mem_cons_of_mem _ hmem, hc⟩
      · cases args with
        | nil => simp at hlast
        | cons b l => exact Or.inr ⟨tok, he, by rw [List.getLast?_cons_cons]; exact hlast, hex⟩
  | (a :: tok) :: args, s, e, h => by
      by_cases ha : a = '-'
      · subst ha
        cases hscan : scanToken s tok with
        | err e0 =>
          rw [shop_track_dash_err s tok args e0 hscan] at h
          have h' : e0 = e := by cases h; rfl
          subst h'
          obtain ⟨c, he, hmem, hnone⟩ := scanToken_err tok s e0 hscan
          exact Or.inl ⟨c, he, hnone, tok, by simp, hmem⟩
        | ok s1 =>
          rw [shop_track_dash_ok s s1 tok args hscan] at h
          have hpres : ∀ d, findTakeArg d s1 = findTakeArg d s := fun d =>
            scanToken_findTakeArg d tok s s1 (by rw [hscan]; rfl)
          rcases shop_track_error_characterisation args s1 e h with
            ⟨c, he, hnone, tok', hmem, hc⟩ | ⟨tok', he, hlast, c, hcm, htrue⟩
          · refine Or.inl ⟨c, he, ?_, tok', List.mem_cons_of_mem _ hmem, hc⟩
            rw [← findTakeArg_eq_none] at hnone ⊢
            rw [← hpres c]; exact hnone
          · cases args with
            | nil => simp at hlast
            | cons b l =>
              refine Or.inr ⟨tok', he, by rw [List.getLast?_cons_cons]; exact hlast,
                c, hcm, ?_⟩
              rw [← hpres c]; exact htrue
        | pending s1 =>
          cases args with
          | nil =>
            rw [shop_track_dash_pending_nil s s1 tok hscan] at h
            have h' : TrackErr.missingArgument ('-' :: tok) = e := by cases h; rfl
            subst h'
            exact Or.inr ⟨tok, rfl, by simp, scanToken_pending_exists tok s s1 hscan⟩
          | cons v args2 =>
            rw [shop_track_dash_pending_cons s s1 tok v args2 hscan] at h
            have hpres : ∀ d, findTakeArg d (assignPending (String.mk v) s1 tok)
                = findTakeArg d s := fun d => by
              rw [assignPending_findTakeArg,
                scanToken_findTakeArg d tok s s1 (by rw [hscan]; rfl)]
            rcases shop_track_error_characterisation args2 _ e h with
              ⟨c, he, hnone, tok', hmem, hc⟩ | ⟨tok', he, hlast, c, hcm, htrue⟩
            · refine Or.inl ⟨c, he, ?_, tok',
                List.mem_cons_of_mem _ (List.mem_cons_of_mem _ hmem), hc⟩
              rw [← findTakeArg_eq_none] at hnone ⊢
              rw [← hpres c]; exact hnone
            · cases args2 with
              | nil => simp at hlast
              | cons b l =>
                refine Or.inr ⟨tok', he, ?_, c, hcm, by rw [← hpres c]; exact htrue⟩
                rw [List.getLast?_cons_cons, List.getLast?_cons_cons]
                exact hlast
      · rw [shop_track_skip s (a :: tok) args (by simpa using ha)] at h
        rcases shop_track_error_characterisation args s e h with
          ⟨c, he, hnone, tok', hmem, hc⟩ | ⟨tok', he, hlast, hex⟩
        · exact Or.inl ⟨c, he, hnone, tok', List.mem_cons_of_mem _ hmem, hc⟩
        · cases args with
          | nil => simp at hlast
          | cons b l =>
            exact Or.inr ⟨tok', he, by rw [List.getLast?_cons_cons]; exact hlast, hex⟩

/-- C3: tracking fails in exactly two situations.  (1) Arguments not
beginning with `'-'` are silently skipped, with no effect on the registry.
(2) Any fatal outcome is one of the two `SHOP_ASSERT`s, under exactly the
claimed circumstances: an "unknown option" abort names a character of some
dash token of the argument vector that is not registered, and an
"option requires argument but not supplied" abort names a dash token that is
the *last* entry of the argument vector and contains a registered
argument-taking option character; in every other case the scan completes
and returns the final registry. -/
theorem claim_C3_track_failure_modes :
    (∀ (s : List shop_option) (a : List Char) (args : List (List Char)),
      a.head? ≠ some '-' → shop_track s (a :: args) = shop_track s args)
    ∧ (∀ (args : List (List Char)) (s : List shop_option) (e : TrackErr),
        shop_track s args = .error e →
        (∃ c, e = .unknownOption c ∧ shop__find c s = none
          ∧ ∃ tok, ('-' :: tok) ∈ args ∧ c ∈ tok)
        ∨ (∃ tok, e = .missingArgument ('-' :: tok) ∧ args.getLast? = some ('-' :: tok)
          ∧ ∃ c ∈ tok, findTakeArg c s = some true)) :=
  ⟨shop_track_skip, shop_track_error_characterisation⟩

/-- Witness for C3: the positional argument `"xyz"` is skipped, and the run
`-a` with `a` argument-taking and nothing after it hits the
missing-argument abort. -/
theorem claim_C3_witness :
    ((['x', 'y', 'z'] : List Char).head? ≠ some '-'
      ∧ shop_track (shop_set ['a', ':', 'b']) [['x', 'y', 'z']]
          = shop_track (shop_set ['a', ':', 'b']) [])
    ∧ (shop_track (shop_set ['a', ':', 'b']) [['-', 'a']]
          = .error (.missingArgument ['-', 'a'])
      ∧ ((∃ c, TrackErr.missingArgument ['-', 'a'] = .unknownOption c
            ∧ shop__find c (shop_set ['a', ':', 'b']) = none
            ∧ ∃ tok, ('-' :: tok) ∈ [['-', 'a']] ∧ c ∈ tok)
        ∨ (∃ tok, TrackErr.missingArgument ['-', 'a'] = .missingArgument ('-' :: tok)
            ∧ (([['-', 'a']] : List (List Char)).getLast? = some ('-' :: tok))
            ∧ ∃ c ∈ tok, findTakeArg c (shop_set ['a', ':', 'b']) = some true))) :=
  ⟨⟨by decide, claim_C3_track_failure_modes.1 (shop_set ['a', ':', 'b'])
      ['x', 'y', 'z'] [] (by decide)⟩,
    by rfl,
    claim_C3_track_failure_modes.2 [['-', 'a']] (shop_set ['a', ':', 'b'])
      (.missingArgument ['-', 'a']) (by rfl)⟩

/-! ## Registry invariant under set-then-track (claim C6) -/

/-- The data-model invariant of §3 of the spec: an unused option holds no
values, and a flag-only option holds no values. -/
def itemsInv (s : List shop_option) : Prop :=
  ∀ o ∈ s, (o.used = false → o.items = []) ∧ (o.take_arg = false → o.items = [])

theorem shop__find_mem (c : Char) (s : List shop_option) (o : shop_option)
    (h : shop__find c s = some o) : o ∈ s := by
  induction s with
  | nil => cases h
  | cons o2 os ih =>
    simp only [shop__find] at h
    cases hf : shop__find c os with
    | some r =>
      rw [hf] at h
      have h' : r = o := by cases h; rfl
      rw [h'] at hf
      exact List.mem_cons_of_mem _ (ih hf)
    | none =>
      rw [hf] at h
      by_cases hn : o2.name = c
      · rw [if_pos hn] at h
        have h' : o2 = o := by cases h; rfl
        simp [h']
      · rw [if_neg hn] at h
        cases h

theorem itemsInv_markUsed (c : Char) (s : List shop_option) (h : itemsInv s) :
    itemsInv (markUsed c s) := by
  intro o' ho'
  rcases mem_updateLast c _ s o' ho' with hm | ⟨o, hfind, rfl⟩
  · exact h o' hm
  · refine ⟨fun hu => by simp at hu, fun hta => ?_⟩
    exact (h o (shop__find_mem c s o hfind)).2 hta

theorem itemsInv_pushItem (c : Char) (v : String) (s : List shop_option)
    (o₀ : shop_option) (hfind : shop__find c s = some o₀)
    (hused : o₀.used = true) (hta : o₀.take_arg = true) (h : itemsInv s) :
    itemsInv (pushItem c v s) := by
  intro o' ho'
  rcases mem_updateLast c _ s o' ho' with hm | ⟨o, hfind2, rfl⟩
  · exact h o' hm
  · have ho : o₀ = o := by rw [hfind] at hfind2; exact Option.some.inj hfind2
    subst ho
    exact ⟨fun hu => by simp [hused] at hu, fun hta2 => by simp [hta] at hta2⟩

theorem scanToken_inv (tok : List Char) :
    ∀ s s', (scanToken s tok).state? = some s' → itemsInv s → itemsInv s' := by
  induction tok with
  | nil =>
    intro s s' h hinv
    simp only [scanToken, ScanRes.state?, Option.some_inj] at h
    exact h ▸ hinv
  | cons c rest ih =>
    intro s s' h hinv
    simp only [scanToken] at h
    cases hf : shop__find c s with
    | none => rw [hf] at h; simp [ScanRes.state?] at h
    | some opt =>
      rw [hf] at h
      by_cases hta : opt.take_arg
      · simp only [hta, if_true] at h
        cases rest with
        | nil =>
          simp only [ScanRes.state?, Option.some_inj] at h
          exact h ▸ itemsInv_markUsed c s hinv
        | cons x xs =>
          simp only [ScanRes.state?, Option.some_inj] at h
          have hfind1 : shop__find c (markUsed c s) = some { opt with used := true } := by
            rw [find_markUsed_self, hf]; rfl
          exact h ▸ itemsInv_pushItem c (String.mk (x :: xs)) (markUsed c s)
            { opt with used := true } hfind1 rfl hta (itemsInv_markUsed c s hinv)
      · simp only [hta, if_false, Bool.false_eq_true] at h
        exact ih (markUsed c s) s' h (itemsInv_markUsed c s hinv)

theorem scanToken_pending_assign_inv (tok : List Char) :
    ∀ s s' v, scanToken s tok = .pending s' → itemsInv s →
      itemsInv (assignPending v s' tok) := by
  induction tok with
  | nil => intro s s' v h; simp [scanToken] at h
  | cons c rest ih =>
    intro s s' v h hinv
    simp only [scanToken] at h
    cases hf : shop__find c s with
    | none => rw [hf] at h; cases h
    | some opt =>
      rw [hf] at h
      by_cases hta : opt.take_arg
      · simp only [hta, if_true] at h
        cases rest with
        | nil =>
          have hs' : markUsed c s = s' := by cases h; rfl
          subst hs'
          have hfind1 : shop__find c (markUsed c s) = some { opt with used := true } := by
            rw [find_markUsed_self, hf]; rfl
          simp only [assignPending, hfind1, hta, if_true]
          exact itemsInv_pushItem c v (markUsed c s) { opt with used := true }
            hfind1 rfl hta (itemsInv_markUsed c s hinv)
        | cons x xs => cases h
      · simp only [hta, if_false, Bool.false_eq_true] at h
        have hpres : findTakeArg c s' = some false := by
          rw [scanToken_findTakeArg c rest (markUsed c s) s' (by rw [h]; rfl),
            findTakeArg_markUsed]
          simp [findTakeArg, hf, hta]
        obtain ⟨o1, hfind1, hta1⟩ := (findTakeArg_eq_some s' c false).mp hpres
        rw [assignPending_skip s' c o1 v rest hfind1 hta1]
        exact ih (markUsed c s) s' v h (itemsInv_markUsed c s hinv)

theorem shop_track_itemsInv :
    ∀ (args : List (List Char)) (s s' : List shop_option),
      shop_track s args = .ok s' → itemsInv s → itemsInv s'
  | [], s, s', h => by
      simp only [shop_track, Except.ok.injEq] at h
      exact fun hinv => h ▸ hinv
  | [] :: args, s, s', h => by
      rw [shop_track_skip s [] args (by simp)] at h
      exact shop_track_itemsInv args s s' h
  | (a :: tok) :: args, s, s', h => by
      by_cases ha : a = '-'
      · subst ha
        cases hscan : scanToken s tok with
        | err e =>
          rw [shop_track_dash_err s tok args e hscan] at h
          cases h
        | ok s1 =>
          rw [shop_track_dash_ok s s1 tok args hscan] at h
          intro hinv
          exact shop_track_itemsInv args s1 s' h
            (scanToken_inv tok s s1 (by rw [hscan]; rfl) hinv)
        | pending s1 =>
          cases args with
          | nil =>
            rw [shop_track_dash_pending_nil s s1 tok hscan] at h
            cases h
          | cons v args2 =>
            rw [shop_track_dash_pending_cons s s1 tok v args2 hscan] at h
            intro hinv
            exact shop_track_itemsInv args2 _ s' h
              (scanToken_pending_assign_inv tok s s1 (String.mk v) hscan hinv)
      · rw [shop_track_skip s (a :: tok) args (by simpa using ha)] at h
        exact shop_track_itemsInv args s s' h

theorem tokenOpts_items (t : List Char) : ∀ o ∈ tokenOpts t, o.items = [] := by
  induction t with
  | nil => intro o ho; cases ho
  | cons c cs ih =>
    cases cs with
    | nil => intro o ho; simp only [tokenOpts, List.mem_singleton] at ho; rw [ho]
    | cons d ds =>
      intro o ho
      simp only [tokenOpts, List.mem_cons] at ho
      rcases ho with ho | ho
      · rw [ho]
      · exact ih o ho

theorem shop_setRaw_items (spec : List Char) :
    ∀ o ∈ shop_setRaw spec, o.items = [] := by
  unfold shop_setRaw
  generalize specTokens spec = ts
  induction ts with
  | nil => intro o ho; cases ho
  | cons t ts ih =>
    intro o ho
    simp only [List.foldr_cons, List.mem_append] at ho
    rcases ho with ho | ho
    · exact tokenOpts_items t o ho
    · exact ih o ho

theorem unmarkLast_items (l : List shop_option) (h : ∀ o ∈ l, o.items = []) :
    ∀ o ∈ unmarkLast l, o.items = [] := by
  induction l with
  | nil => intro o ho; cases ho
  | cons o2 os ih =>
    cases os with
    | nil =>
      intro o ho
      simp only [unmarkLast, List.mem_singleton] at ho
      rw [ho]
      exact h o2 (by simp)
    | cons o3 os2 =>
      intro o ho
      simp only [unmarkLast, List.mem_cons] at ho
      rcases ho with ho | ho
      · rw [ho]; exact h o2 (by simp)
      · exact ih (fun o4 ho4 => h o4 (List.mem_cons_of_mem _ ho4)) o ho

theorem itemsInv_shop_set (spec : List Char) : itemsInv (shop_set spec) := by
  have hall : ∀ o ∈ shop_set spec, o.items = [] := by
    unfold shop_set
    by_cases hlast : spec.getLast? = some ':'
    · rw [if_pos hlast]; exact shop_setRaw_items spec
    · rw [if_neg hlast]; exact unmarkLast_items _ (shop_setRaw_items spec)
  exact fun o ho => ⟨fun _ => hall o ho, fun _ => hall o ho⟩

/-- C6: in a registry freshly built by `shop_set` and then mutated only by
`shop_track`, every descriptor with `used = false` has an empty value list,
and every flag-only descriptor (`take_arg = false`) has an empty value list —
a flag never accumulates a value even when one is syntactically adjacent. -/
theorem claim_C6_fresh_track_invariant (spec : List Char) (args : List (List Char))
    (s' : List shop_option) (h : shop_track (shop_set spec) args = .ok s') :
    ∀ o ∈ s', (o.used = false → o.items = []) ∧ (o.take_arg = false → o.items = []) :=
  shop_track_itemsInv args (shop_set spec) s' h (itemsInv_shop_set spec)

/-- Witness for C6: spec `"vf:"`, run `-vf 1` (flag `v` adjacent to the value
`1` of `f`). -/
theorem claim_C6_witness :
    shop_track (shop_set ['v', 'f', ':']) [['-', 'v', 'f'], ['1']]
        = .ok [⟨'v', none, none, true, false, []⟩, ⟨'f', none, none, true, true, ["1"]⟩]
    ∧ ∀ o ∈ [(⟨'v', none, none, true, false, []⟩ : shop_option),
        ⟨'f', none, none, true, true, ["1"]⟩],
        (o.used = false → o.items = []) ∧ (o.take_arg = false → o.items = []) :=
  ⟨by rfl,
    claim_C6_fresh_track_invariant ['v', 'f', ':'] [['-', 'v', 'f'], ['1']] _ (by rfl)⟩

end Shop
